import Mathlib

/-!
# Verification of the pathlib buffered transfer engine and path queries

A shallow embedding of `pathlib.go` (murasakiakari/pathlib).

The core of the library is `buffedCopy`, a fixed-buffer copy loop moving
bytes from a `bufio.Reader`-wrapped source to a `bufio.Writer`-wrapped
destination.  We embed the loop over abstract stream oracles (a `read`, a
`write` and a `flush` operation on explicit stream states), so that each
claim can instantiate the streams it talks about: in-memory byte slices
(`bytes.Reader` / `bytes.Buffer`), POSIX files opened at offset 0, or
adversarial streams producing errors and short writes.

Bytes are modelled as `Nat` (only their identity matters to the claims);
byte counts are `Nat` (the Go `uint64` arithmetic never overflows for any
stream the claims quantify over).  The loop, which in Go runs until the
source is exhausted, is given explicit fuel; `CopyResult.fuelOut` marks an
exhausted fuel budget and the theorems always supply enough fuel.
-/

namespace Pathlib

/-- Errors the embedded code distinguishes: `io.EOF`, `io.ErrShortWrite`,
`fs.ErrNotExist`, `fs.ErrExist`, `fs.ErrPermission`, and an opaque family
of other collaborator errors. -/
inductive IOErr where
  | eof
  | shortWrite
  | notFound
  | exist
  | permission
  | other (code : Nat)
deriving DecidableEq, Repr

/-- A pair of streams as `buffedCopy` sees them: a buffered reader with
state `ρ` answering `read` requests of a given size with a chunk of bytes
and an optional error, and a buffered writer with state `ω` answering
`write` calls with an accepted count and an optional error, plus a `flush`
finaliser (`bufio.Writer.Flush`). -/
structure RWOracles (ρ ω : Type) where
  read : ρ → Nat → ρ × List Nat × Option IOErr
  write : ω → List Nat → ω × Nat × Option IOErr
  flush : ω → ω × Option IOErr

/-- Outcome of a `buffedCopy` run: final writer state, the `copiedSize`
counter, and the returned error — or exhaustion of the fuel budget. -/
inductive CopyResult (ω : Type) where
  | done (w : ω) (copiedSize : Nat) (err : Option IOErr)
  | fuelOut
deriving DecidableEq, Repr

/-- The loop of `buffedCopy` (pathlib.go lines 598-616), one constructor
case per iteration:

    for {
        nr, err := bufferReader.Read(buffer)
        if err != nil && err != io.EOF { return copiedSize, err }
        if nr == 0 { bufferWriter.Flush(); break }
        nw, err := bufferWriter.Write(buffer[:nr])
        if err != nil { return copiedSize, err }
        if nr != nw { return copiedSize, io.ErrShortWrite }
        copiedSize += uint64(nw)
    }
    return

The chunk returned by `read` plays the role of `buffer[:nr]`, so `nr` is
`chunk.length`.  Note that the error of the final `Flush` is discarded by
the source, and the embedding mirrors that: only the flushed writer state
is kept. -/
def buffedCopyLoop {ρ ω : Type} (o : RWOracles ρ ω) (B : Nat) :
    Nat → ρ → ω → Nat → CopyResult ω
  | 0, _, _, _ => .fuelOut
  | fuel + 1, r, w, copiedSize =>
    let rstep := o.read r B
    let r' := rstep.1
    let chunk := rstep.2.1
    let rerr := rstep.2.2
    if rerr ≠ none ∧ rerr ≠ some .eof then .done w copiedSize rerr
    else if chunk.length = 0 then .done (o.flush w).1 copiedSize none
    else
      let wstep := o.write w chunk
      let w' := wstep.1
      let nw := wstep.2.1
      let werr := wstep.2.2
      if werr ≠ none then .done w' copiedSize werr
      else if chunk.length ≠ nw then .done w' copiedSize (some .shortWrite)
      else buffedCopyLoop o B fuel r' w' (copiedSize + nw)

/-- `buffedCopy(reader, writer, bufferSize)`: run the loop with
`copiedSize = 0`. -/
def buffedCopy {ρ ω : Type} (o : RWOracles ρ ω) (fuel B : Nat) (r : ρ) (w : ω) :
    CopyResult ω :=
  buffedCopyLoop o B fuel r w 0

/-- A `bufio.Reader` over an in-memory byte source (`bytes.Reader`,
`strings.Reader`, or a regular file read sequentially): a `read` of `n`
bytes takes the next `min n remaining` bytes; an empty source reports
`io.EOF`. -/
def listRead (src : List Nat) (n : Nat) : List Nat × List Nat × Option IOErr :=
  (src.drop n, src.take n, if src.isEmpty then some .eof else none)

/-- Error-free in-memory streams: `listRead` source and a `bytes.Buffer`
destination that accepts every byte offered. -/
def byteOracles : RWOracles (List Nat) (List Nat) where
  read := listRead
  write := fun w chunk => (w ++ chunk, chunk.length, none)
  flush := fun w => (w, none)

/-- A writable file handle: current content and the file offset of the
next write. -/
structure FileW where
  content : List Nat
  offset : Nat
deriving DecidableEq, Repr

/-- A POSIX write at the current offset: the chunk overlays the existing
content starting at `offset` (an `O_WRONLY` open without `O_TRUNC` keeps
bytes beyond what is written). -/
def fileWrite (f : FileW) (chunk : List Nat) : FileW × Nat × Option IOErr :=
  (⟨f.content.take f.offset ++ chunk ++ f.content.drop (f.offset + chunk.length),
    f.offset + chunk.length⟩, chunk.length, none)

/-- Streams for a copy from an in-memory source into an error-free file
destination. -/
def fileOracles : RWOracles (List Nat) FileW where
  read := listRead
  write := fileWrite
  flush := fun w => (w, none)

/-- `buffedCopy` instrumented with a trace of its write calls: each entry
records the bytes offered (`chunk.length`), the bytes the writer accepted
(`nw`) and the write's error.  Identical to `buffedCopyLoop` otherwise. -/
def buffedCopyLoopTr {ρ ω : Type} (o : RWOracles ρ ω) (B : Nat) :
    Nat → ρ → ω → Nat → List (Nat × Nat × Option IOErr) →
      CopyResult ω × List (Nat × Nat × Option IOErr)
  | 0, _, _, _, acc => (.fuelOut, acc)
  | fuel + 1, r, w, copiedSize, acc =>
    let rstep := o.read r B
    let r' := rstep.1
    let chunk := rstep.2.1
    let rerr := rstep.2.2
    if rerr ≠ none ∧ rerr ≠ some .eof then (.done w copiedSize rerr, acc)
    else if chunk.length = 0 then (.done (o.flush w).1 copiedSize none, acc)
    else
      let wstep := o.write w chunk
      let w' := wstep.1
      let nw := wstep.2.1
      let werr := wstep.2.2
      let acc' := acc ++ [(chunk.length, nw, werr)]
      if werr ≠ none then (.done w' copiedSize werr, acc')
      else if chunk.length ≠ nw then (.done w' copiedSize (some .shortWrite), acc')
      else buffedCopyLoopTr o B fuel r' w' (copiedSize + nw) acc'

/-- Total bytes accepted across the write calls of a trace: what the
destination's buffering actually received. -/
def traceAccepted (tr : List (Nat × Nat × Option IOErr)) : Nat :=
  (tr.map (fun t => t.2.1)).sum

/-- Total bytes accepted across the error-free write calls of a trace. -/
def traceOkAccepted (tr : List (Nat × Nat × Option IOErr)) : Nat :=
  traceAccepted (tr.filter (fun t => t.2.2.isNone))

/-! ## The filesystem model.

A flat store of files: an association list from path strings to byte
contents, most recent binding first.  Directories are not materialised
(`MkdirAll` always succeeds), and the model has no permissions, so the
`OpenFile(..|O_CREATE, ..)` calls of the source never fail. -/

/-- The filesystem: path → content, most recent binding first. -/
abbrev FS := List (String × List Nat)

/-- Content of the file at `p`, if one exists. -/
def fsLookup (fs : FS) (p : String) : Option (List Nat) :=
  match fs with
  | [] => none
  | (q, c) :: rest => if q = p then some c else fsLookup rest p

/-- Create or replace the file at `p` with content `c`. -/
def fsUpdate (fs : FS) (p : String) (c : List Nat) : FS :=
  (p, c) :: fs

/-- `Path.BuffedWriteFile(data, bufferSize)`: `OpenFile(O_WRONLY|O_CREATE,
0755)` — the file is created empty when absent and its existing bytes are
kept (no `O_TRUNC`) — then `buffedCopy` from a `bytes.Reader` over `data`
into the file, writing from offset 0.  The file handle is closed (content
recorded) on every exit path.  `none` means the fuel ran out. -/
def BuffedWriteFile (fs : FS) (p : String) (data : List Nat) (B fuel : Nat) :
    Option (FS × Nat × Option IOErr) :=
  let existing := (fsLookup fs p).getD []
  match buffedCopy fileOracles fuel B data ⟨existing, 0⟩ with
  | .done f copiedSize err => some (fsUpdate fs p f.content, copiedSize, err)
  | .fuelOut => none

/-- `Path.BuffedReadFile(bufferSize)`: `OpenFile(O_RDONLY|O_CREATE, 0755)`
— when the path is absent an empty file is created as a side effect — then
`buffedCopy` from the file into a `bytes.Buffer`, whose bytes are returned
together with the copied size and error. -/
def BuffedReadFile (fs : FS) (p : String) (B fuel : Nat) :
    Option (FS × List Nat × Nat × Option IOErr) :=
  let content := (fsLookup fs p).getD []
  let fs1 := match fsLookup fs p with
    | some _ => fs
    | none => fsUpdate fs p []
  match buffedCopy byteOracles fuel B content [] with
  | .done buf copiedSize err => some (fs1, buf, copiedSize, err)
  | .fuelOut => none

/-- `Path.CopyToFile(destinationPath, bufferSize)`: `MkdirAll` on the
destination's directory (always succeeds in this flat model), `Open` the
source (not-found when absent), `Create` the destination (truncated to
empty), then `buffedCopy`.  Faithful when `dst ≠ src` (the source content
is snapshotted at open time). -/
def CopyToFile (fs : FS) (src dst : String) (B fuel : Nat) :
    Option (FS × Nat × Option IOErr) :=
  match fsLookup fs src with
  | none => some (fs, 0, some .notFound)
  | some content =>
    match buffedCopy fileOracles fuel B content ⟨[], 0⟩ with
    | .done f copiedSize err => some (fsUpdate fs dst f.content, copiedSize, err)
    | .fuelOut => none

/-! ## The path algebra used by `CopyToDirectory`.

The repository delegates to Go's `path/filepath`; these model its Unix
(`/`-separated, empty volume name) semantics over the character list of
the path string. -/

/-- Split a character list on `'/'` into its components (a separator at
either end or a doubled separator yields empty components, exactly as
`strings.Split` would). -/
def splitSep : List Char → List (List Char)
  | [] => [[]]
  | c :: rest =>
    match splitSep rest with
    | [] => [[]]
    | comp :: comps =>
      if c = '/' then [] :: comp :: comps else (c :: comp) :: comps

/-- One component of `filepath.Clean`'s scan, acting on the stack of kept
components (most recent first): empty and `"."` components are dropped;
`".."` pops a poppable component, is itself kept when the path is relative
and nothing can be popped, and is dropped at the root; anything else is
kept. -/
def cleanStep (rooted : Bool) (stack : List (List Char)) (comp : List Char) :
    List (List Char) :=
  if comp = [] ∨ comp = ['.'] then stack
  else if comp = ['.', '.'] then
    match stack with
    | [] => if rooted then [] else [['.', '.']]
    | top :: rest => if top = ['.', '.'] then comp :: top :: rest else rest
  else comp :: stack

/-- Model of Go `filepath.Clean` (Unix): shortest lexically equivalent
path — remove `.` components and doubled separators, resolve `..` against
preceding components, return `"."` for an empty relative result. -/
def pathClean (p : String) : String :=
  if p = "" then "."
  else
    let cs := p.data
    let rooted := cs.head? = some '/'
    let stack := List.foldl (cleanStep rooted) [] (splitSep cs)
    let comps := stack.reverse
    if rooted then ⟨'/' :: List.intercalate ['/'] comps⟩
    else if comps = [] then "." else ⟨List.intercalate ['/'] comps⟩

/-- Model of Go `filepath.Base` (Unix): last element of the path after
trailing separators are removed; `"."` for the empty path, `"/"` for a
path of only separators. -/
def pathBase (p : String) : String :=
  if p = "" then "."
  else
    let rev := p.data.reverse.dropWhile (fun c => c == '/')
    if rev = [] then "/"
    else ⟨(rev.takeWhile (fun c => c != '/')).reverse⟩

/-- Model of Go `filepath.Join` (Unix): join everything from the first
non-empty element with separators, then `Clean`; all-empty input yields
the empty string. -/
def filepathJoin (elems : List String) : String :=
  match elems.dropWhile (fun e => e == "") with
  | [] => ""
  | rest => pathClean (String.intercalate "/" rest)

/-- `Path.Join(element...)`: `filepath.Join` of the path followed by the
elements (pathlib.go lines 192-197). -/
def PathJoin (p : String) (element : List String) : String :=
  filepathJoin (p :: element)

/-- `Path.CopyToDirectory(directoryPath, bufferSize)`: the destination
path is the directory joined with the source's `Base`, and the transfer is
delegated to `CopyToFile` (pathlib.go lines 547-551). -/
def CopyToDirectory (fs : FS) (p dir : String) (B fuel : Nat) :
    Option (String × FS × Nat × Option IOErr) :=
  let destinationPath := PathJoin dir [pathBase p]
  match CopyToFile fs p destinationPath B fuel with
  | some (fs1, copiedSize, err) => some (destinationPath, fs1, copiedSize, err)
  | none => none

/-! ## The stat-based queries `IsExist` and `IsDir`. -/

/-- What `os.Stat` reports about a file. -/
structure FileInfo where
  isDir : Bool
deriving DecidableEq, Repr

/-- The `(FileInfo, error)` pair an `os.Stat` call returns: `info` is the
`nil`-able pointer, `err` the error.  The OS contract is that exactly one
of the two is present. -/
structure StatOutcome where
  info : Option FileInfo
  err : Option IOErr
deriving DecidableEq, Repr

/-- `errors.Is(err, target)`: a `nil` error matches no target. -/
def errorsIs (e : Option IOErr) (target : IOErr) : Bool :=
  match e with
  | none => false
  | some e0 => e0 == target

/-- `Path.IsExist` (pathlib.go lines 506-509): stat the path and report
true unless the error is `fs.ErrNotExist`. -/
def IsExist (st : StatOutcome) : Bool :=
  !(errorsIs st.err .notFound)

/-- `Path.IsDir` (pathlib.go lines 512-518): stat the path, return false
unless `errors.Is(err, fs.ErrExist)`, otherwise call `info.IsDir()`.  The
result is `none` when that call dereferences a `nil` info pointer. -/
def IsDir (st : StatOutcome) : Option Bool :=
  if !(errorsIs st.err .exist) then some false
  else st.info.map FileInfo.isDir

/-! ## Adversarial stream instances used by individual claims. -/

/-- In-memory streams whose destination accepts at most one byte per
write call and reports no error: a short-write device. -/
def shortWriteOracles : RWOracles (List Nat) (List Nat) where
  read := listRead
  write := fun w chunk => (w ++ chunk.take 1, (chunk.take 1).length, none)
  flush := fun w => (w, none)

/-- In-memory streams whose destination fails every flush: buffered bytes
are never made durable. -/
def failFlushOracles : RWOracles (List Nat) (List Nat) where
  read := listRead
  write := fun w chunk => (w ++ chunk, chunk.length, none)
  flush := fun w => (w, some (.other 1))

/-! ## Step lemmas: one iteration of the loop, one lemma per exit branch. -/

/-- A read failing with an error other than `io.EOF` returns the running
count and that error; the writer is untouched. -/
theorem buffedCopyLoop_step_readErr {ρ ω : Type} (o : RWOracles ρ ω) (B fuel : Nat)
    (r : ρ) (w : ω) (c : Nat) (r' : ρ) (chunk : List Nat) (e : IOErr)
    (hr : o.read r B = (r', chunk, some e)) (he : e ≠ .eof) :
    buffedCopyLoop o B (fuel + 1) r w c = .done w c (some e) := by
  simp only [buffedCopyLoop, hr]
  rw [if_pos (by simp [he])]

/-- A read returning no bytes (end of stream) flushes the writer,
discarding the flush error, and returns the running count with no error. -/
theorem buffedCopyLoop_step_eof {ρ ω : Type} (o : RWOracles ρ ω) (B fuel : Nat)
    (r : ρ) (w : ω) (c : Nat) (r' : ρ) (rerr : Option IOErr)
    (hr : o.read r B = (r', [], rerr)) (hok : rerr = none ∨ rerr = some .eof) :
    buffedCopyLoop o B (fuel + 1) r w c = .done (o.flush w).1 c none := by
  have hcond : ¬(rerr ≠ none ∧ rerr ≠ some IOErr.eof) := by
    rcases hok with h | h <;> simp [h]
  simp only [buffedCopyLoop, hr]
  rw [if_neg hcond, if_pos (by simp)]

/-- A failing write returns the running count (the failed write's bytes
are not added) and the write's error. -/
theorem buffedCopyLoop_step_writeErr {ρ ω : Type} (o : RWOracles ρ ω) (B fuel : Nat)
    (r : ρ) (w : ω) (c : Nat) (r' : ρ) (chunk : List Nat) (rerr : Option IOErr)
    (w' : ω) (nw : Nat) (e : IOErr)
    (hr : o.read r B = (r', chunk, rerr)) (hok : rerr = none ∨ rerr = some .eof)
    (hne : chunk ≠ []) (hw : o.write w chunk = (w', nw, some e)) :
    buffedCopyLoop o B (fuel + 1) r w c = .done w' c (some e) := by
  have hcond : ¬(rerr ≠ none ∧ rerr ≠ some IOErr.eof) := by
    rcases hok with h | h <;> simp [h]
  simp only [buffedCopyLoop, hr, hw]
  rw [if_neg hcond, if_neg (by simpa using hne), if_pos (by simp)]

/-- An error-free write accepting fewer bytes than offered returns the
running count (the short write's bytes are not added) and
`io.ErrShortWrite`. -/
theorem buffedCopyLoop_step_short {ρ ω : Type} (o : RWOracles ρ ω) (B fuel : Nat)
    (r : ρ) (w : ω) (c : Nat) (r' : ρ) (chunk : List Nat) (rerr : Option IOErr)
    (w' : ω) (nw : Nat)
    (hr : o.read r B = (r', chunk, rerr)) (hok : rerr = none ∨ rerr = some .eof)
    (hne : chunk ≠ []) (hw : o.write w chunk = (w', nw, none))
    (hnw : nw ≠ chunk.length) :
    buffedCopyLoop o B (fuel + 1) r w c = .done w' c (some .shortWrite) := by
  have hcond : ¬(rerr ≠ none ∧ rerr ≠ some IOErr.eof) := by
    rcases hok with h | h <;> simp [h]
  simp only [buffedCopyLoop, hr, hw]
  rw [if_neg hcond, if_neg (by simpa using hne), if_neg (by simp),
    if_pos (by omega)]

/-- A fully accepted, error-free write adds its size to the running count
and continues the loop. -/
theorem buffedCopyLoop_step_write {ρ ω : Type} (o : RWOracles ρ ω) (B fuel : Nat)
    (r : ρ) (w : ω) (c : Nat) (r' : ρ) (chunk : List Nat) (rerr : Option IOErr)
    (w' : ω)
    (hr : o.read r B = (r', chunk, rerr)) (hok : rerr = none ∨ rerr = some .eof)
    (hne : chunk ≠ []) (hw : o.write w chunk = (w', chunk.length, none)) :
    buffedCopyLoop o B (fuel + 1) r w c =
      buffedCopyLoop o B fuel r' w' (c + chunk.length) := by
  have hcond : ¬(rerr ≠ none ∧ rerr ≠ some IOErr.eof) := by
    rcases hok with h | h <;> simp [h]
  simp only [buffedCopyLoop, hr, hw]
  rw [if_neg hcond, if_neg (by simpa using hne), if_neg (by simp),
    if_neg (by simp)]

/-! ## Exact runs over the error-free in-memory streams. -/

/-- Every `byteOracles` run appends the whole source to the destination
buffer and counts every byte, provided the buffer size is positive and the
fuel exceeds the source length. -/
theorem byteLoop_exact (B : Nat) (hB : 1 ≤ B) :
    ∀ fuel src w copiedSize, src.length < fuel →
      buffedCopyLoop byteOracles B fuel src w copiedSize =
        .done (w ++ src) (copiedSize + src.length) none := by
  intro fuel
  induction fuel with
  | zero => intro src w c h; exact absurd h (by omega)
  | succ n ih =>
    intro src w c h
    cases src with
    | nil =>
      have := buffedCopyLoop_step_eof byteOracles B n [] w c [] (some .eof)
        (by simp [byteOracles, listRead]) (Or.inr rfl)
      simpa [byteOracles] using this
    | cons a tl =>
      have hread : byteOracles.read (a :: tl) B =
          (List.drop B (a :: tl), List.take B (a :: tl), none) := by
        simp [byteOracles, listRead]
      have hpos : (List.take B (a :: tl)).length ≠ 0 := by
        rw [List.length_take]; simp; omega
      have hne : List.take B (a :: tl) ≠ [] := by
        intro hx; rw [hx] at hpos; simp at hpos
      have hwrite : byteOracles.write w (List.take B (a :: tl)) =
          (w ++ List.take B (a :: tl), (List.take B (a :: tl)).length, none) := rfl
      rw [buffedCopyLoop_step_write byteOracles B n (a :: tl) w c _ _ none _
        hread (Or.inl rfl) hne hwrite]
      have hlt : (List.drop B (a :: tl)).length < n := by
        rw [List.length_drop]
        simp only [List.length_cons] at h ⊢
        omega
      rw [ih _ _ _ hlt, List.append_assoc, List.take_append_drop]
      have hlen : (List.take B (a :: tl)).length + (List.drop B (a :: tl)).length
          = (a :: tl).length := by
        rw [List.length_take, List.length_drop]
        simp only [List.length_cons]
        omega
      congr 1
      omega

/-- Every `fileOracles` run starting from a handle whose offset sits at
the end of its content appends the whole source to the file and counts
every byte, provided the buffer size is positive and the fuel exceeds the
source length. -/
theorem fileLoop_exact (B : Nat) (hB : 1 ≤ B) :
    ∀ fuel src cont copiedSize, src.length < fuel →
      buffedCopyLoop fileOracles B fuel src ⟨cont, cont.length⟩ copiedSize =
        .done ⟨cont ++ src, (cont ++ src).length⟩ (copiedSize + src.length) none := by
  intro fuel
  induction fuel with
  | zero => intro src cont c h; exact absurd h (by omega)
  | succ n ih =>
    intro src cont c h
    cases src with
    | nil =>
      have := buffedCopyLoop_step_eof fileOracles B n [] ⟨cont, cont.length⟩ c []
        (some .eof) (by simp [fileOracles, listRead]) (Or.inr rfl)
      simpa [fileOracles] using this
    | cons a tl =>
      have hread : fileOracles.read (a :: tl) B =
          (List.drop B (a :: tl), List.take B (a :: tl), none) := by
        simp [fileOracles, listRead]
      have hpos : (List.take B (a :: tl)).length ≠ 0 := by
        rw [List.length_take]; simp; omega
      have hne : List.take B (a :: tl) ≠ [] := by
        intro hx; rw [hx] at hpos; simp at hpos
      have hwrite : fileOracles.write ⟨cont, cont.length⟩ (List.take B (a :: tl)) =
          (⟨cont ++ List.take B (a :: tl), (cont ++ List.take B (a :: tl)).length⟩,
            (List.take B (a :: tl)).length, none) := by
        simp only [fileOracles, fileWrite]
        rw [List.take_length, List.drop_eq_nil_of_le (Nat.le_add_right _ _)]
        simp
      rw [buffedCopyLoop_step_write fileOracles B n (a :: tl) _ c _ _ none _
        hread (Or.inl rfl) hne hwrite]
      have hlt : (List.drop B (a :: tl)).length < n := by
        rw [List.length_drop]
        simp only [List.length_cons] at h ⊢
        omega
      rw [ih _ _ _ hlt]
      have hlen : (List.take B (a :: tl)).length + (List.drop B (a :: tl)).length
          = (a :: tl).length := by
        rw [List.length_take, List.length_drop]
        simp only [List.length_cons]
        omega
      rw [List.append_assoc, List.take_append_drop]
      congr 1
      omega

/-! ## Accounting of the instrumented loop. -/

theorem traceAccepted_cons (a b : Nat) (e : Option IOErr)
    (tl : List (Nat × Nat × Option IOErr)) :
    traceAccepted ((a, b, e) :: tl) = b + traceAccepted tl := by
  simp [traceAccepted]

theorem traceOkAccepted_cons_none (a b : Nat)
    (tl : List (Nat × Nat × Option IOErr)) :
    traceOkAccepted ((a, b, none) :: tl) = b + traceOkAccepted tl := by
  simp [traceOkAccepted, traceAccepted, List.filter_cons]

theorem traceOkAccepted_cons_some (a b : Nat) (e : IOErr)
    (tl : List (Nat × Nat × Option IOErr)) :
    traceOkAccepted ((a, b, some e) :: tl) = traceOkAccepted tl := by
  simp [traceOkAccepted, traceAccepted, List.filter_cons]

theorem traceOkAccepted_le (tr : List (Nat × Nat × Option IOErr)) :
    traceOkAccepted tr ≤ traceAccepted tr := by
  induction tr with
  | nil => simp [traceOkAccepted, traceAccepted]
  | cons t tl ih =>
    obtain ⟨a, b, e⟩ := t
    cases e with
    | none =>
      rw [traceOkAccepted_cons_none, traceAccepted_cons]
      omega
    | some e0 =>
      rw [traceOkAccepted_cons_some, traceAccepted_cons]
      omega

/-- The instrumented loop computes the same result as the plain loop. -/
theorem buffedCopyLoopTr_fst {ρ ω : Type} (o : RWOracles ρ ω) (B : Nat) :
    ∀ fuel r w c acc,
      (buffedCopyLoopTr o B fuel r w c acc).1 = buffedCopyLoop o B fuel r w c := by
  intro fuel
  induction fuel with
  | zero => intro r w c acc; rfl
  | succ n ih =>
    intro r w c acc
    by_cases h1 : (o.read r B).2.2 ≠ none ∧ (o.read r B).2.2 ≠ some IOErr.eof
    · simp only [buffedCopyLoopTr, buffedCopyLoop, if_pos h1]
    · by_cases h2 : (o.read r B).2.1.length = 0
      · simp only [buffedCopyLoopTr, buffedCopyLoop, if_neg h1, if_pos h2]
      · by_cases h3 : (o.write w (o.read r B).2.1).2.2 ≠ none
        · simp only [buffedCopyLoopTr, buffedCopyLoop, if_neg h1, if_neg h2,
            if_pos h3]
        · by_cases h4 : (o.read r B).2.1.length ≠ (o.write w (o.read r B).2.1).2.1
          · simp only [buffedCopyLoopTr, buffedCopyLoop, if_neg h1, if_neg h2,
              if_neg h3, if_pos h4]
          · simp only [buffedCopyLoopTr, buffedCopyLoop, if_neg h1, if_neg h2,
              if_neg h3, if_neg h4]
            exact ih _ _ _ _

/-- Whenever the instrumented loop terminates, the returned count is the
starting count plus the bytes accepted by the error-free write calls it
recorded — provided the writer honours the `bufio.Writer` contract that a
short count always comes with an error. -/
theorem buffedCopyLoopTr_inv {ρ ω : Type} (o : RWOracles ρ ω) (B : Nat)
    (Hw : ∀ w0 chunk, (o.write w0 chunk).2.2 = none →
      (o.write w0 chunk).2.1 = chunk.length) :
    ∀ fuel r w c acc wf cf e tr,
      buffedCopyLoopTr o B fuel r w c acc = (.done wf cf e, tr) →
      ∃ Δ, tr = acc ++ Δ ∧ cf = c + traceOkAccepted Δ := by
  intro fuel
  induction fuel with
  | zero =>
    intro r w c acc wf cf e tr h
    simp [buffedCopyLoopTr] at h
  | succ n ih =>
    intro r w c acc wf cf e tr h
    by_cases h1 : (o.read r B).2.2 ≠ none ∧ (o.read r B).2.2 ≠ some IOErr.eof
    · simp only [buffedCopyLoopTr, if_pos h1, Prod.mk.injEq] at h
      obtain ⟨hres, htr⟩ := h
      injection hres with hw0 hc0 he0
      refine ⟨[], by simp [htr.symm], ?_⟩
      simp [traceOkAccepted, traceAccepted, hc0.symm]
    · by_cases h2 : (o.read r B).2.1.length = 0
      · simp only [buffedCopyLoopTr, if_neg h1, if_pos h2, Prod.mk.injEq] at h
        obtain ⟨hres, htr⟩ := h
        injection hres with hw0 hc0 he0
        refine ⟨[], by simp [htr.symm], ?_⟩
        simp [traceOkAccepted, traceAccepted, hc0.symm]
      · by_cases h3 : (o.write w (o.read r B).2.1).2.2 ≠ none
        · obtain ⟨e0, he0⟩ := Option.ne_none_iff_exists'.mp h3
          simp only [buffedCopyLoopTr, if_neg h1, if_neg h2, if_pos h3,
            Prod.mk.injEq] at h
          obtain ⟨hres, htr⟩ := h
          injection hres with hw0 hc0 he0'
          refine ⟨[((o.read r B).2.1.length, (o.write w (o.read r B).2.1).2.1,
            (o.write w (o.read r B).2.1).2.2)], by simp [htr.symm], ?_⟩
          rw [he0, traceOkAccepted_cons_some]
          simp [traceOkAccepted, traceAccepted, hc0.symm]
        · have hnone : (o.write w (o.read r B).2.1).2.2 = none := not_ne_iff.mp h3
          by_cases h4 : (o.read r B).2.1.length ≠ (o.write w (o.read r B).2.1).2.1
          · have hfull := Hw w (o.read r B).2.1 hnone
            omega
          · simp only [buffedCopyLoopTr, if_neg h1, if_neg h2, if_neg h3,
              if_neg h4, hnone] at h
            obtain ⟨Δ', hΔ', hc'⟩ := ih _ _ _ _ _ _ _ _ h
            refine ⟨((o.read r B).2.1.length, (o.write w (o.read r B).2.1).2.1,
              none) :: Δ', ?_, ?_⟩
            · rw [hΔ', List.append_assoc]
              simp
            · rw [traceOkAccepted_cons_none]
              omega

/-! ## The claims. -/

/-- Claim C1: for every byte sequence `S` and every buffer size `B ≥ 1`,
`buffedCopy` over a source stream holding exactly `S` and an error-free
destination delivers destination content exactly `S` and returns a copied
size of `S.length` with no error. -/
theorem buffedCopy_delivers_source_exactly (S : List Nat) (B : Nat) (hB : 1 ≤ B) :
    buffedCopy byteOracles (S.length + 1) B S [] = .done S S.length none := by
  have h := byteLoop_exact B hB (S.length + 1) S [] 0 (by omega)
  simpa [buffedCopy] using h

/-- Witness for C1 at `S = [3, 1, 4]`, `B = 2`. -/
theorem buffedCopy_delivers_source_exactly_witness :
    buffedCopy byteOracles 4 2 [3, 1, 4] [] = .done [3, 1, 4] 3 none :=
  buffedCopy_delivers_source_exactly [3, 1, 4] 2 (by omega)

/-- Claim C2: for every run of `buffedCopy`, success or error, the
returned copied size equals the total bytes of the write calls that
completed without error, and never exceeds the bytes actually accepted
into the destination stream's buffering across all write calls.  The
writer is a `bufio.Writer`, whose contract is that a write accepting fewer
bytes than offered returns an error (`Hw`). -/
theorem buffedCopy_count_accounting {ρ ω : Type} (o : RWOracles ρ ω)
    (B fuel : Nat) (r : ρ) (w : ω)
    (Hw : ∀ w0 chunk, (o.write w0 chunk).2.2 = none →
      (o.write w0 chunk).2.1 = chunk.length)
    (wf : ω) (cf : Nat) (e : Option IOErr) (tr : List (Nat × Nat × Option IOErr))
    (h : buffedCopyLoopTr o B fuel r w 0 [] = (.done wf cf e, tr)) :
    buffedCopy o fuel B r w = .done wf cf e ∧
      cf = traceOkAccepted tr ∧ cf ≤ traceAccepted tr := by
  obtain ⟨Δ, hΔ, hc⟩ := buffedCopyLoopTr_inv o B Hw fuel r w 0 [] wf cf e tr h
  simp only [List.nil_append] at hΔ
  subst hΔ
  refine ⟨?_, by omega, ?_⟩
  · have hfst := buffedCopyLoopTr_fst o B fuel r w 0 []
    rw [h] at hfst
    exact hfst.symm
  · have hle := traceOkAccepted_le tr
    omega

/-- Witness for C2: the error-free in-memory streams on source `[1, 2]`
with buffer size 1 produce two fully accepted writes of one byte each. -/
theorem buffedCopy_count_accounting_witness :
    buffedCopy byteOracles 3 1 [1, 2] [] = .done [1, 2] 2 none ∧
      2 = traceOkAccepted [(1, 1, none), (1, 1, none)] ∧
      2 ≤ traceAccepted [(1, 1, none), (1, 1, none)] :=
  buffedCopy_count_accounting byteOracles 1 3 [1, 2] []
    (fun w0 chunk h => rfl) [1, 2] 2 none [(1, 1, none), (1, 1, none)] rfl

/-- Claim C3 (code bug): the claim — and the spec — require a buffer size
of 0 to fail immediately with an invalid-buffer-size error.  The code has
no such validation: a zero-length `bufio` read returns 0 bytes with no
error, so the loop flushes and exits reporting success.  On a source
holding `[1, 2, 3]` the run returns copied size 0 and a `nil` error,
delivering nothing. -/
theorem buffedCopy_zero_buffer_silently_succeeds :
    buffedCopy byteOracles 1 0 [1, 2, 3] [] = .done [] 0 none := rfl

/-- Claim C4: a write call that accepts fewer bytes than the bytes just
read, without reporting an error of its own, aborts the transfer
immediately with `io.ErrShortWrite`; the short write is never retried, and
the returned copied size excludes the short write's bytes. -/
theorem buffedCopy_short_write_aborts {ρ ω : Type} (o : RWOracles ρ ω)
    (B fuel : Nat) (r : ρ) (w : ω) (copiedSize : Nat) (r' : ρ)
    (chunk : List Nat) (rerr : Option IOErr) (w' : ω) (nw : Nat)
    (hr : o.read r B = (r', chunk, rerr)) (hok : rerr = none ∨ rerr = some .eof)
    (hne : chunk ≠ []) (hw : o.write w chunk = (w', nw, none))
    (hnw : nw ≠ chunk.length) :
    buffedCopyLoop o B (fuel + 1) r w copiedSize =
      .done w' copiedSize (some .shortWrite) :=
  buffedCopyLoop_step_short o B fuel r w copiedSize r' chunk rerr w' nw
    hr hok hne hw hnw

/-- Witness for C4: a destination accepting at most one byte per write,
offered the two-byte chunk `[5, 6]`, aborts with a short write and a
copied size of 0. -/
theorem buffedCopy_short_write_aborts_witness :
    buffedCopyLoop shortWriteOracles 2 1 [5, 6] [] 0 =
      .done [5] 0 (some .shortWrite) :=
  buffedCopy_short_write_aborts shortWriteOracles 2 0 [5, 6] [] 0 [] [5, 6]
    none [5] 1 rfl (Or.inl rfl) (by simp) rfl (by decide)

/-- Claim C5: writing `S` to a fresh path with `BuffedWriteFile` and
reading the path back with `BuffedReadFile` returns exactly `S`, for every
`S` and every buffer size `B ≥ 1`. -/
theorem buffed_write_read_roundtrip (S : List Nat) (B : Nat) (fs : FS)
    (p : String) (hB : 1 ≤ B) (hfresh : fsLookup fs p = none) :
    BuffedWriteFile fs p S B (S.length + 1) =
      some (fsUpdate fs p S, S.length, none) ∧
    BuffedReadFile (fsUpdate fs p S) p B (S.length + 1) =
      some (fsUpdate fs p S, S, S.length, none) := by
  have hW := fileLoop_exact B hB (S.length + 1) S [] 0 (by omega)
  have hR := byteLoop_exact B hB (S.length + 1) S [] 0 (by omega)
  simp only [List.nil_append, List.length_nil, Nat.zero_add] at hW hR
  constructor
  · simp only [BuffedWriteFile, hfresh, Option.getD_none, buffedCopy]
    rw [hW]
  · have hlook : fsLookup (fsUpdate fs p S) p = some S := by
      simp [fsLookup, fsUpdate]
    simp only [BuffedReadFile, hlook, Option.getD_some, buffedCopy]
    rw [hR]

/-- Witness for C5 at `S = [7, 8, 9]`, `B = 2` (a length that is not a
multiple of the buffer size), on an empty filesystem. -/
theorem buffed_write_read_roundtrip_witness :
    BuffedWriteFile [] "f" [7, 8, 9] 2 4 =
      some ([("f", [7, 8, 9])], 3, none) ∧
    BuffedReadFile [("f", [7, 8, 9])] "f" 2 4 =
      some ([("f", [7, 8, 9])], [7, 8, 9], 3, none) :=
  buffed_write_read_roundtrip [7, 8, 9] 2 [] "f" (by omega) rfl

/-- Claim C6, counterexample: the final `bufferWriter.Flush()` in
`buffedCopy` discards its error.  A destination whose flush fails still
produces a run reporting success (`nil` error), so not every collaborator
error is propagated. -/
theorem buffedCopy_flush_error_suppressed :
    (failFlushOracles.flush []).2 = some (IOErr.other 1) ∧
    buffedCopy failFlushOracles 1 4 [] [] = .done [] 0 none :=
  ⟨rfl, rfl⟩

/-- Claim C6 as amended: every error returned by a read call (other than
the end-of-stream sentinel) or by a write call is propagated to the
caller, but the error of the final flush of the transfer's buffered output
is discarded: an end-of-stream iteration returns a `nil` error no matter
what the flush reported. -/
theorem buffedCopy_error_propagation {ρ ω : Type} (o : RWOracles ρ ω)
    (B fuel : Nat) (r : ρ) (w : ω) (copiedSize : Nat) :
    (∀ r' chunk e, o.read r B = (r', chunk, some e) → e ≠ .eof →
      buffedCopyLoop o B (fuel + 1) r w copiedSize =
        .done w copiedSize (some e)) ∧
    (∀ r' chunk rerr w' nw e, o.read r B = (r', chunk, rerr) →
      (rerr = none ∨ rerr = some .eof) → chunk ≠ [] →
      o.write w chunk = (w', nw, some e) →
      buffedCopyLoop o B (fuel + 1) r w copiedSize =
        .done w' copiedSize (some e)) ∧
    (∀ r' rerr, o.read r B = (r', [], rerr) →
      (rerr = none ∨ rerr = some .eof) →
      buffedCopyLoop o B (fuel + 1) r w copiedSize =
        .done (o.flush w).1 copiedSize none) := by
  refine ⟨?_, ?_, ?_⟩
  · intro r' chunk e hr he
    exact buffedCopyLoop_step_readErr o B fuel r w copiedSize r' chunk e hr he
  · intro r' chunk rerr w' nw e hr hok hne hw
    exact buffedCopyLoop_step_writeErr o B fuel r w copiedSize r' chunk rerr
      w' nw e hr hok hne hw
  · intro r' rerr hr hok
    exact buffedCopyLoop_step_eof o B fuel r w copiedSize r' rerr hr hok

/-- Witness for the amended C6: on the failing-flush destination with an
empty source, the end-of-stream branch returns a `nil` error. -/
theorem buffedCopy_error_propagation_witness :
    buffedCopyLoop failFlushOracles 4 1 [] [] 0 = .done [] 0 none :=
  (buffedCopy_error_propagation failFlushOracles 4 0 [] [] 0).2.2 []
    (some .eof) rfl (Or.inr rfl)

/-- Claim C7 (code bug): `IsDir` tests `errors.Is(err, fs.ErrExist)`,
which is false when `os.Stat` succeeds, so `IsDir` returns false for
every path whose stat succeeds — in particular for every existing
directory — contradicting the claim and the function's own doc comment. -/
theorem IsDir_false_on_stat_success (info : FileInfo) :
    IsDir ⟨some info, none⟩ = some false := by
  simp [IsDir, errorsIs]

/-- Claim C8: `IsExist` returns false exactly when the stat error is
not-found; it returns true on stat success and on every other stat error,
permission-denied included. -/
theorem IsExist_false_iff_notFound (st : StatOutcome) :
    IsExist st = false ↔ st.err = some IOErr.notFound := by
  obtain ⟨info, err⟩ := st
  cases err with
  | none => simp [IsExist, errorsIs]
  | some e => cases e <;> simp [IsExist, errorsIs]

/-- Claim C9: `CopyToDirectory` sends the file at `src` to the path
obtained by joining the directory with `src`'s base filename, delegating
to `CopyToFile`; the destination file's content equals the source's.
(The hypothesis `hne` keeps the run inside the model's faithful region:
the destination is a different file than the source, so `Create`'s
truncation of the destination cannot affect the source being read.) -/
theorem CopyToDirectory_joins_base_and_copies (fs : FS) (src dir : String)
    (content : List Nat) (B : Nat) (hB : 1 ≤ B)
    (hsrc : fsLookup fs src = some content)
    (hne : PathJoin dir [pathBase src] ≠ src) :
    CopyToDirectory fs src dir B (content.length + 1) =
      some (PathJoin dir [pathBase src],
        fsUpdate fs (PathJoin dir [pathBase src]) content,
        content.length, none) ∧
    fsLookup (fsUpdate fs (PathJoin dir [pathBase src]) content)
      (PathJoin dir [pathBase src]) = some content := by
  have hW := fileLoop_exact B hB (content.length + 1) content [] 0 (by omega)
  simp only [List.nil_append, List.length_nil, Nat.zero_add] at hW
  constructor
  · simp only [CopyToDirectory, CopyToFile, hsrc, buffedCopy]
    rw [hW]
  · simp [fsLookup, fsUpdate]

/-- Witness for C9: the spec's example — source `/src/report.txt` holding
`[1, 2, 3]`, target directory `/tmp/dest`, buffer size 8 — produces the
destination path `/tmp/dest/report.txt` with identical content. -/
theorem CopyToDirectory_joins_base_and_copies_witness :
    PathJoin "/tmp/dest" [pathBase "/src/report.txt"] = "/tmp/dest/report.txt" ∧
    CopyToDirectory [("/src/report.txt", [1, 2, 3])] "/src/report.txt"
        "/tmp/dest" 8 4 =
      some ("/tmp/dest/report.txt",
        [("/tmp/dest/report.txt", [1, 2, 3]), ("/src/report.txt", [1, 2, 3])],
        3, none) ∧
    fsLookup [("/tmp/dest/report.txt", [1, 2, 3]), ("/src/report.txt", [1, 2, 3])]
      "/tmp/dest/report.txt" = some [1, 2, 3] := by
  have hpath : PathJoin "/tmp/dest" [pathBase "/src/report.txt"] =
      "/tmp/dest/report.txt" := by decide
  have h := CopyToDirectory_joins_base_and_copies
    [("/src/report.txt", [1, 2, 3])] "/src/report.txt" "/tmp/dest" [1, 2, 3] 8
    (by omega) (by decide) (by decide)
  rw [hpath] at h
  exact ⟨hpath, h.1, h.2⟩

/-- Claim C10: `BuffedReadFile` on a missing path does not report
not-found: the `O_CREATE` open creates an empty file as a side effect and
the call returns empty data, read size 0 and no error, for every buffer
size `B ≥ 1`. -/
theorem BuffedReadFile_creates_missing_file (fs : FS) (p : String)
    (B fuel : Nat) (hB : 1 ≤ B) (hfuel : 1 ≤ fuel)
    (habsent : fsLookup fs p = none) :
    BuffedReadFile fs p B fuel = some (fsUpdate fs p [], [], 0, none) := by
  obtain ⟨n, rfl⟩ : ∃ n, fuel = n + 1 := ⟨fuel - 1, by omega⟩
  have h := buffedCopyLoop_step_eof byteOracles B n [] [] 0 [] (some .eof)
    (by simp [byteOracles, listRead]) (Or.inr rfl)
  simp only [BuffedReadFile, habsent, Option.getD_none, buffedCopy]
  rw [h]
  rfl

/-- Witness for C10 on the empty filesystem at path `"a"`, buffer size 1. -/
theorem BuffedReadFile_creates_missing_file_witness :
    BuffedReadFile [] "a" 1 1 = some ([("a", [])], [], 0, none) :=
  BuffedReadFile_creates_missing_file [] "a" 1 1 (by omega) (by omega) rfl

end Pathlib
